import Mathlib

/-!
Verification of the statistics/deduplication engine of the letterboxd-rewind
repository (`src/stats.py`, `src/scraper.py`, `api/scrape_job/index.py`).

Shallow embedding conventions:
* A dataframe row becomes a `DiaryRecord`; a dataframe becomes a
  `List DiaryRecord` in row order.
* Ratings are rationals (`ℚ`); the Letterboxd ratings appearing in the data
  are multiples of 0.5 in [0, 5], all exactly representable.  A missing
  (NaN) rating is `none`.
* `pandas` operations are translated as follows:
  `df.sort_values(["movie_name", "_rating_sort"], ascending=[True, False])`
  is a stable lexicographic sort (pandas uses `np.lexsort`, which is stable,
  whenever several sort keys are given), modelled by the stable insertion
  sort `sortRows` with the lexicographic comparison `dedupLE`;
  `drop_duplicates(subset=["movie_name"], keep="first")` keeps the first row
  of each `movie_name`, modelled by `dropDupByName`.
* The real-valued scoring functions (`math.log`, `math.sqrt`) are modelled
  over `ℝ` with `Real.log` / `Real.sqrt`.
-/

/-- One diary row, with the columns used by the statistics engine:
`movie_name`, `rating` (the user's rating, NaN ⇒ `none`), `avg_rating`
(the Letterboxd global average, NaN ⇒ `none`) and `directors`. -/
structure DiaryRecord where
  movie_name : String
  rating : Option ℚ := none
  avg_rating : Option ℚ := none
  directors : List String := []
deriving DecidableEq

/-- `stats.py` line 36: `tmp["_rating_sort"] = tmp["rating"].fillna(-1)`. -/
def ratingSort (r : DiaryRecord) : ℚ :=
  r.rating.getD (-1)

/-- Strict lexicographic comparison of character lists, used to order movie
names the way pandas orders string keys. -/
def strLT : List Char → List Char → Bool
  | [], [] => false
  | [], _ :: _ => true
  | _ :: _, [] => false
  | a :: as, b :: bs => decide (a < b) || (a == b && strLT as bs)

/-- Lexicographic order on strings (on their character lists). -/
def nameLT (a b : String) : Bool :=
  strLT a.data b.data

/-- The comparison realised by
`sort_values(["movie_name", "_rating_sort"], ascending=[True, False])`:
movie name ascending, then `_rating_sort` descending. -/
def dedupLE (a b : DiaryRecord) : Bool :=
  nameLT a.movie_name b.movie_name ||
    (a.movie_name == b.movie_name && decide (ratingSort b ≤ ratingSort a))

/-- Insert `x` into `l` before the first element `y` with `le x y`.  Used by
`sortRows`; when `l` is sorted this places `x` after every element tied with
it, which is what makes `sortRows` stable. -/
def insertRow {α : Type} (le : α → α → Bool) (x : α) : List α → List α
  | [] => [x]
  | y :: ys => if le x y then x :: y :: ys else y :: insertRow le x ys

/-- A stable sort of the rows by the comparison `le` (insertion sort).
Models the stable `np.lexsort` that pandas applies for a multi-column
`sort_values`, and Python's stable `list.sort`. -/
def sortRows {α : Type} (le : α → α → Bool) : List α → List α
  | [] => []
  | x :: xs => insertRow le x (sortRows le xs)

/-- `drop_duplicates(subset=["movie_name"], keep="first")`: scan the rows in
order, keeping a row only when its `movie_name` has not been seen yet. -/
def dropDupByName : List DiaryRecord → List String → List DiaryRecord
  | [], _ => []
  | r :: rs, seen =>
    if r.movie_name ∈ seen then dropDupByName rs seen
    else r :: dropDupByName rs (r.movie_name :: seen)

/-- `stats.py` lines 35–38: the deduplicated dataframe `self.df_unique`,
keeping for each `movie_name` the row with the highest `fillna(-1)` rating,
ties resolved to the first row in the original order (stable sort +
`keep="first"`). -/
def df_unique (records : List DiaryRecord) : List DiaryRecord :=
  dropDupByName (sortRows dedupLE records) []

/-- The spec's ordering on optional ratings: an absent rating is below any
numeric rating; numeric ratings compare numerically. -/
def optRatingLE : Option ℚ → Option ℚ → Bool
  | none, _ => true
  | some _, none => false
  | some a, some b => decide (a ≤ b)

/-- `argmaxPred records t x`: row `x` is titled `t` and its `fillna(-1)`
rating is maximal among the rows of `records` titled `t`. -/
def argmaxPred (records : List DiaryRecord) (t : String) (x : DiaryRecord) :
    Bool :=
  x.movie_name == t &&
    (records.filter (fun y => y.movie_name == t)).all
      (fun y => decide (ratingSort y ≤ ratingSort x))

/-- The first row of `records` (original order) whose title is `t` and whose
`fillna(-1)` rating is maximal among the rows titled `t`. -/
def firstArgmax (records : List DiaryRecord) (t : String) : Option DiaryRecord :=
  records.find? (argmaxPred records t)

/-- `sum(ratings) / len(ratings) if ratings else None`
(`stats.py` lines 85, 128). -/
def avgRatingOf (ratings : List ℚ) : Option ℚ :=
  if ratings = [] then none else some (ratings.sum / ratings.length)

/-- `stats.py` `aggregate_list_field`, lines 62–80, projected at one facet
value `v`: iterate over the rows; for each occurrence of `v` among the row's
(non-empty) items, increment the count and, when the row's rating is not NaN,
append it to the ratings list.  The column is abstracted as
`field : DiaryRecord → List String`. -/
def aggregate_list_field (field : DiaryRecord → List String)
    (records : List DiaryRecord) (v : String) : ℕ × List ℚ :=
  records.foldl (fun acc r =>
    let occ := ((field r).filter (fun i => i ≠ "")).count v
    (acc.1 + occ,
      acc.2 ++ (match r.rating with
        | some q => List.replicate occ q
        | none => []))) (0, [])

/-- `stats.py` `aggregate_single_field`, lines 110–123, projected at one
facet value `v`: rows whose (non-missing, non-empty) value equals `v`
contribute one count and, when rated, their rating. -/
def aggregate_single_field (field : DiaryRecord → Option String)
    (records : List DiaryRecord) (v : String) : ℕ × List ℚ :=
  records.foldl (fun acc r =>
    match field r with
    | none => acc
    | some s =>
      if s = "" then acc
      else if s = v then
        (acc.1 + 1,
          acc.2 ++ (match r.rating with | some q => [q] | none => []))
      else acc) (0, [])

/-- `stats.py` `_weighted_average_score` (lines 133–146):
`0.0` when the average rating is `None` or the count is `0`, otherwise
`avg_rating * log(count + 1)`. -/
noncomputable def weighted_average_score : Option ℝ → ℕ → ℝ
  | none, _ => 0
  | some a, n => if n = 0 then 0 else a * Real.log (n + 1)

/-- `stats.py` `_bayesian_average_score` (lines 148–166) at its default
parameters `c = 3`, `m = 3.0`:
`0.0` when the average rating is `None` or the count is `0`, otherwise
`(count * avg_rating + 3 * 3.0) / (count + 3)`. -/
noncomputable def bayesian_average_score : Option ℝ → ℕ → ℝ
  | none, _ => 0
  | some a, n => if n = 0 then 0 else (n * a + 3 * 3) / (n + 3)

/-- `stats.py` `_wilson_score` (lines 168–198) at its default `z = 1.96`:
`0.0` when the count is `0`, otherwise the lower bound of the Wilson
interval on `avg_rating / 5`, rescaled to 0–5 and clamped to `[0, 5]`. -/
noncomputable def wilson_score (avg_rating : ℝ) (count : ℕ) : ℝ :=
  if count = 0 then 0
  else
    let z : ℝ := 1.96
    let p_hat := avg_rating / 5
    let denominator := 1 + z * z / count
    let center := (p_hat + z * z / (2 * count)) / denominator
    let margin := z * Real.sqrt (p_hat * (1 - p_hat) / count
      + z * z / (4 * count * count)) / denominator
    max 0 (min 5 ((center - margin) * 5))

/-- The Wilson interval lower bound in cleared-denominator form
(numerator and denominator of the code's expression multiplied by `count`),
used as a proof-side normal form of `wilson_score`. -/
noncomputable def wilsonL (p : ℝ) (n : ℕ) : ℝ :=
  (n * p + (1.96 : ℝ) ^ 2 / 2
      - Real.sqrt ((1.96 : ℝ) ^ 2 * (p * (1 - p)) * n + ((1.96 : ℝ) ^ 2) ^ 2 / 4))
    / (n + (1.96 : ℝ) ^ 2)

/-- One observed outcome of `session.get(url)` in `scraper.py`
`fetch_with_retry` (lines 375–393): a response with an HTTP status and a
body, a timeout, or another exception. -/
inductive FetchOutcome where
  | response (status : ℕ) (body : String)
  | timeout
  | exn
deriving DecidableEq

/-- The retry loop of `fetch_with_retry`, indexed by the current attempt
number and the remaining loop iterations.  Returns the fetched body (or
`none`) together with the number of attempts made.  Status 200 returns the
body; 429 and ≥ 500 sleep and retry, as do timeouts and other exceptions;
any other status returns `none` immediately. -/
def fetchWithRetryAux (resp : ℕ → FetchOutcome) :
    ℕ → ℕ → Option String × ℕ
  | attempt, 0 => (none, attempt)
  | attempt, fuel + 1 =>
    match resp attempt with
    | .response s body =>
      if s = 200 then (some body, attempt + 1)
      else if s = 429 then fetchWithRetryAux resp (attempt + 1) fuel
      else if 500 ≤ s then fetchWithRetryAux resp (attempt + 1) fuel
      else (none, attempt + 1)
    | .timeout => fetchWithRetryAux resp (attempt + 1) fuel
    | .exn => fetchWithRetryAux resp (attempt + 1) fuel

/-- `scraper.py` `fetch_with_retry(url, max_retries=3)`: run the retry loop
from attempt 0.  `resp i` is the outcome the origin produces for attempt
`i`. -/
def fetch_with_retry (resp : ℕ → FetchOutcome) (max_retries : ℕ := 3) :
    Option String × ℕ :=
  fetchWithRetryAux resp 0 max_retries

/-- The `(director, your_rating - avg_rating)` pairs collected by
`stats.py` `director_rating_variance` (lines 464–487): rows with both a
personal and a global rating contribute one pair per non-empty director. -/
def directorVariancePairs (records : List DiaryRecord) : List (String × ℚ) :=
  records.flatMap (fun r =>
    match r.rating, r.avg_rating with
    | some y, some g => (r.directors.filter (fun d => d ≠ "")).map (fun d => (d, y - g))
    | _, _ => [])

/-- First-occurrence deduplication of a list of names (the insertion order
of a Python dict's keys). -/
def dedupFirst : List String → List String
  | [] => []
  | x :: xs => x :: (dedupFirst xs).filter (fun y => y ≠ x)

/-- `stats.py` `director_rating_variance` (lines 456–495): for each director
(in first-appearance order) the average of their variances and their film
count. -/
def director_rating_variance (records : List DiaryRecord) :
    List (String × ℚ × ℕ) :=
  (dedupFirst ((directorVariancePairs records).map Prod.fst)).map (fun d =>
    let vs := ((directorVariancePairs records).filter (fun pr => pr.1 == d)).map Prod.snd
    (d, (if vs = [] then 0 else vs.sum / vs.length), vs.length))

/-- `stats.py` `top_underhyped_directors` (lines 527–556): keep directors
with at least `min_films` films, attach the weighted score
`avg_variance * sqrt(num_films)`, sort ascending by it (Python's stable
`list.sort`), and take the first `n`. -/
noncomputable def top_underhyped_directors (records : List DiaryRecord)
    (n min_films : ℕ) : List (String × ℚ × ℕ × ℝ) :=
  (sortRows (fun a b => decide (a.2.2.2 ≤ b.2.2.2))
    ((director_rating_variance records).filterMap (fun e =>
      if e.2.2 < min_films then none
      else some (e.1, e.2.1, e.2.2, (e.2.1 : ℝ) * Real.sqrt (e.2.2 : ℕ))))).take n

/-- `top_underhyped_directors` called with its declared defaults
`n = 3, min_films = 1` (`stats.py` line 527). -/
noncomputable def top_underhyped_directors_default
    (records : List DiaryRecord) : List (String × ℚ × ℕ × ℝ) :=
  top_underhyped_directors records 3 1

/-- `stats.py` `get_average_rating` (lines 791–803): the mean of the
non-NaN ratings of the deduplicated dataframe, `None` when there are none.
(The final `round(·, 2)` is a floating-point presentation step and is not
modelled; it does not interact with which rows are averaged or with
absence.) -/
def get_average_rating (records : List DiaryRecord) : Option ℚ :=
  avgRatingOf ((df_unique records).filterMap (fun r => r.rating))

/-! ### Order lemmas for the sort comparisons -/

theorem strLT_irrefl : ∀ l : List Char, strLT l l = false
  | [] => rfl
  | a :: as => by simp [strLT, strLT_irrefl as]

theorem strLT_asymm : ∀ {a b : List Char}, strLT a b → strLT b a = false
  | [], [], h => by simp [strLT] at h
  | [], _ :: _, _ => by simp [strLT]
  | _ :: _, [], h => by simp [strLT] at h
  | a :: as, b :: bs, h => by
    simp only [strLT, Bool.or_eq_true, Bool.and_eq_true, decide_eq_true_eq,
      beq_iff_eq] at h
    simp only [strLT, Bool.or_eq_false_iff, Bool.and_eq_false_iff,
      decide_eq_false_iff_not, beq_eq_false_iff_ne, ne_eq]
    rcases h with h | ⟨rfl, h⟩
    · exact ⟨asymm h, Or.inl fun hba => absurd hba (ne_of_gt h)⟩
    · exact ⟨lt_irrefl a, Or.inr (strLT_asymm h)⟩

theorem strLT_trans : ∀ {a b c : List Char},
    strLT a b → strLT b c → strLT a c
  | [], _, _ :: _, _, _ => by simp [strLT]
  | [], _ :: _, [], _, h2 => by simp [strLT] at h2
  | [], [], [], h1, _ => by simp [strLT] at h1
  | _ :: _, [], _, h1, _ => by simp [strLT] at h1
  | _ :: _, _ :: _, [], _, h2 => by simp [strLT] at h2
  | a :: as, b :: bs, c :: cs, h1, h2 => by
    simp only [strLT, Bool.or_eq_true, Bool.and_eq_true, decide_eq_true_eq,
      beq_iff_eq] at h1 h2 ⊢
    rcases h1 with h1 | ⟨rfl, h1⟩
    · rcases h2 with h2 | ⟨rfl, h2⟩
      · exact Or.inl (lt_trans h1 h2)
      · exact Or.inl h1
    · rcases h2 with h2 | ⟨rfl, h2⟩
      · exact Or.inl h2
      · exact Or.inr ⟨rfl, strLT_trans h1 h2⟩

theorem eq_of_strLT_false : ∀ {a b : List Char},
    strLT a b = false → strLT b a = false → a = b
  | [], [], _, _ => rfl
  | [], _ :: _, h1, _ => by simp [strLT] at h1
  | _ :: _, [], _, h2 => by simp [strLT] at h2
  | a :: as, b :: bs, h1, h2 => by
    simp only [strLT, Bool.or_eq_false_iff, Bool.and_eq_false_iff,
      decide_eq_false_iff_not, beq_eq_false_iff_ne, ne_eq] at h1 h2
    obtain ⟨hab, h1'⟩ := h1
    obtain ⟨hba, h2'⟩ := h2
    have hcab : a = b := le_antisymm (not_lt.mp hba) (not_lt.mp hab)
    subst hcab
    rcases h1' with h1' | h1'
    · exact absurd rfl h1'
    · rcases h2' with h2' | h2'
      · exact absurd rfl h2'
      · exact congrArg (a :: ·) (eq_of_strLT_false h1' h2')

theorem eq_of_nameLT_false {a b : String} (h1 : nameLT a b = false)
    (h2 : nameLT b a = false) : a = b := by
  cases a; cases b
  exact congrArg String.mk (eq_of_strLT_false h1 h2)

theorem dedupLE_total (a b : DiaryRecord) : dedupLE a b || dedupLE b a := by
  simp only [dedupLE, Bool.or_eq_true, Bool.and_eq_true, decide_eq_true_eq,
    beq_iff_eq]
  by_cases h1 : nameLT a.movie_name b.movie_name
  · exact Or.inl (Or.inl h1)
  by_cases h2 : nameLT b.movie_name a.movie_name
  · exact Or.inr (Or.inl h2)
  have he := eq_of_nameLT_false (Bool.eq_false_iff.mpr h1)
    (Bool.eq_false_iff.mpr h2)
  rcases le_total (ratingSort b) (ratingSort a) with h | h
  · exact Or.inl (Or.inr ⟨he, h⟩)
  · exact Or.inr (Or.inr ⟨he.symm, h⟩)

theorem dedupLE_trans {a b c : DiaryRecord} (h1 : dedupLE a b)
    (h2 : dedupLE b c) : dedupLE a c := by
  simp only [dedupLE, Bool.or_eq_true, Bool.and_eq_true, decide_eq_true_eq,
    beq_iff_eq] at h1 h2 ⊢
  rcases h1 with h1 | ⟨he1, hr1⟩
  · rcases h2 with h2 | ⟨he2, hr2⟩
    · exact Or.inl (strLT_trans h1 h2)
    · exact Or.inl (he2 ▸ h1)
  · rcases h2 with h2 | ⟨he2, hr2⟩
    · exact Or.inl (he1 ▸ h2)
    · exact Or.inr ⟨he1.trans he2, le_trans hr2 hr1⟩

/-- Two rows related by `dedupLE` in both directions have the same movie
name and the same `fillna(-1)` rating. -/
theorem dedupLE_antisymm {a b : DiaryRecord} (h1 : dedupLE a b)
    (h2 : dedupLE b a) :
    a.movie_name = b.movie_name ∧ ratingSort a = ratingSort b := by
  simp only [dedupLE, Bool.or_eq_true, Bool.and_eq_true, decide_eq_true_eq,
    beq_iff_eq] at h1 h2
  rcases h1 with h1 | ⟨he1, hr1⟩
  · rcases h2 with h2 | ⟨he2, hr2⟩
    · have h1' : strLT a.movie_name.data b.movie_name.data = true := h1
      have := strLT_asymm h1'
      exact absurd h2 (by simp [nameLT, this])
    · rw [he2] at h1
      simp [nameLT, strLT_irrefl] at h1
  · rcases h2 with h2 | ⟨he2, hr2⟩
    · rw [he1] at h2
      simp [nameLT, strLT_irrefl] at h2
    · exact ⟨he1, le_antisymm hr2 hr1⟩

/-- Rows with equal names compare by `dedupLE` exactly by descending
`fillna(-1)` rating. -/
theorem dedupLE_of_name_eq {a b : DiaryRecord}
    (he : a.movie_name = b.movie_name) :
    dedupLE a b = decide (ratingSort b ≤ ratingSort a) := by
  simp [dedupLE, he, nameLT, strLT_irrefl]

/-! ### The stable insertion sort: permutation, sortedness, stability -/

theorem insertRow_perm {α : Type} (le : α → α → Bool) (x : α) :
    ∀ l : List α, List.Perm (insertRow le x l) (x :: l)
  | [] => List.Perm.refl _
  | y :: ys => by
    simp only [insertRow]
    split
    · exact List.Perm.refl _
    · exact ((insertRow_perm le x ys).cons y).trans (List.Perm.swap x y ys)

theorem mem_insertRow {α : Type} {le : α → α → Bool} {x a : α} {l : List α} :
    a ∈ insertRow le x l ↔ a = x ∨ a ∈ l := by
  rw [(insertRow_perm le x l).mem_iff, List.mem_cons]

theorem sortRows_perm {α : Type} (le : α → α → Bool) :
    ∀ l : List α, List.Perm (sortRows le l) l
  | [] => List.Perm.refl _
  | x :: xs => (insertRow_perm le x (sortRows le xs)).trans
      ((sortRows_perm le xs).cons x)

theorem pairwise_insertRow {α : Type} {le : α → α → Bool}
    (htot : ∀ a b, le a b || le b a)
    (htrans : ∀ {a b c}, le a b → le b c → le a c) (x : α) :
    ∀ {l : List α}, l.Pairwise (le · ·) →
      (insertRow le x l).Pairwise (le · ·)
  | [], _ => List.Pairwise.cons (by simp) List.Pairwise.nil
  | y :: ys, h => by
    rw [List.pairwise_cons] at h
    simp only [insertRow]
    split
    · rename_i hxy
      refine List.Pairwise.cons ?_ (List.Pairwise.cons h.1 h.2)
      intro b hb
      rcases List.mem_cons.mp hb with rfl | hb
      · exact hxy
      · exact htrans hxy (h.1 b hb)
    · rename_i hxy
      have hyx : le y x := by
        rcases Bool.or_eq_true _ _ ▸ htot x y with h' | h'
        · exact absurd h' hxy
        · exact h'
      refine List.Pairwise.cons ?_ (pairwise_insertRow htot htrans x h.2)
      intro b hb
      rcases mem_insertRow.mp hb with rfl | hb
      · exact hyx
      · exact h.1 b hb

theorem pairwise_sortRows {α : Type} {le : α → α → Bool}
    (htot : ∀ a b, le a b || le b a)
    (htrans : ∀ {a b c}, le a b → le b c → le a c) :
    ∀ l : List α, (sortRows le l).Pairwise (le · ·)
  | [] => List.Pairwise.nil
  | x :: xs => pairwise_insertRow htot htrans x
      (pairwise_sortRows htot htrans xs)

theorem sublist_insertRow {α : Type} (le : α → α → Bool) (x : α) :
    ∀ l : List α, List.Sublist l (insertRow le x l)
  | [] => List.nil_sublist _
  | y :: ys => by
    simp only [insertRow]
    split
    · exact List.sublist_cons_self _ _
    · exact (sublist_insertRow le x ys).cons₂ y

theorem cons_sublist_insertRow {α : Type} {le : α → α → Bool} {x : α} :
    ∀ {c m : List α}, List.Sublist c m → (∀ b ∈ c, le x b) →
      List.Sublist (x :: c) (insertRow le x m)
  | c, [], hc, _ => by
    rw [List.sublist_nil.mp hc]
    simp [insertRow]
  | c, z :: zs, hc, hx => by
    simp only [insertRow]
    split
    · exact List.Sublist.cons₂ x hc
    · rename_i hxz
      cases hc with
      | cons _ hc' => exact (cons_sublist_insertRow hc' hx).cons z
      | cons₂ _ hc' =>
        exact absurd (hx z (List.mem_cons_self z _)) (by simpa using hxz)

/-- Stability of `sortRows`: a sublist already ordered by `le` stays a
sublist of the sorted output. -/
theorem sublist_sortRows {α : Type} {le : α → α → Bool} :
    ∀ {c l : List α}, List.Sublist c l → c.Pairwise (le · ·) →
      List.Sublist c (sortRows le l)
  | _, [], hc, _ => by
    rw [List.sublist_nil.mp hc]
    exact List.nil_sublist _
  | c, y :: ys, hc, hp => by
    simp only [sortRows]
    cases hc with
    | cons _ hc' =>
      exact (sublist_sortRows hc' hp).trans
        (sublist_insertRow le y (sortRows le ys))
    | cons₂ _ hc' =>
      rw [List.pairwise_cons] at hp
      exact cons_sublist_insertRow (sublist_sortRows hc' hp.2) hp.1

/-! ### `drop_duplicates(keep="first")` -/

theorem dropDupByName_sublist :
    ∀ (s : List DiaryRecord) (seen : List String),
      List.Sublist (dropDupByName s seen) s
  | [], _ => List.Sublist.refl _
  | r :: rs, seen => by
    simp only [dropDupByName]
    split
    · exact (dropDupByName_sublist rs seen).cons r
    · exact (dropDupByName_sublist rs _).cons₂ r

theorem not_mem_seen_of_mem_dropDupByName :
    ∀ {s : List DiaryRecord} {seen : List String} {r : DiaryRecord},
      r ∈ dropDupByName s seen → r.movie_name ∉ seen
  | [], _, r, h => by simp [dropDupByName] at h
  | x :: xs, seen, r, h => by
    simp only [dropDupByName] at h
    split at h
    · exact not_mem_seen_of_mem_dropDupByName h
    · rcases List.mem_cons.mp h with rfl | h'
      · assumption
      · have h2 := not_mem_seen_of_mem_dropDupByName h'
        intro hc
        exact h2 (List.mem_cons_of_mem _ hc)

/-- `dropDupByName` keeps exactly the first row of each unseen movie name. -/
theorem mem_dropDupByName_iff :
    ∀ {s : List DiaryRecord} {seen : List String} {r : DiaryRecord},
      r ∈ dropDupByName s seen ↔
        r.movie_name ∉ seen ∧
          s.find? (fun y => y.movie_name == r.movie_name) = some r
  | [], seen, r => by simp [dropDupByName]
  | x :: xs, seen, r => by
    simp only [dropDupByName]
    by_cases hname : x.movie_name = r.movie_name
    · rw [List.find?_cons_of_pos _ (by simp [hname])]
      split
    -- the head's name has been seen already: both sides are impossible
      · rename_i hx
        constructor
        · intro h
          exact absurd (hname ▸ hx) (not_mem_seen_of_mem_dropDupByName h)
        · rintro ⟨hseen, heq⟩
          injection heq with heq
          subst heq
          exact absurd (hname ▸ hx) hseen
      · rename_i hx
        constructor
        · intro h
          rcases List.mem_cons.mp h with rfl | h'
          · exact ⟨hname ▸ hx, rfl⟩
          · have h2 := not_mem_seen_of_mem_dropDupByName h'
            rw [← hname] at h2
            exact absurd (List.mem_cons_self _ _) h2
        · rintro ⟨hseen, heq⟩
          injection heq with heq
          subst heq
          exact List.mem_cons_self _ _
    · rw [List.find?_cons_of_neg _ (by simp [hname])]
      split
      · exact mem_dropDupByName_iff
      · rw [List.mem_cons]
        constructor
        · intro h
          rcases h with rfl | h'
          · exact absurd rfl hname
          · have h2 := mem_dropDupByName_iff.mp h'
            exact ⟨fun hc => h2.1 (List.mem_cons_of_mem _ hc), h2.2⟩
        · rintro ⟨hseen, hfind⟩
          refine Or.inr (mem_dropDupByName_iff.mpr ⟨?_, hfind⟩)
          intro hc
          rcases List.mem_cons.mp hc with hc | hc
          · exact hname hc.symm
          · exact hseen hc

/-- Each movie name of the scanned rows appears exactly once in the output
of `dropDupByName` (when not already seen). -/
theorem countP_dropDupByName (t : String) :
    ∀ (s : List DiaryRecord) (seen : List String),
      (dropDupByName s seen).countP (fun r => r.movie_name == t) =
        if t ∈ s.map (fun r => r.movie_name) ∧ t ∉ seen then 1 else 0
  | [], seen => by simp [dropDupByName]
  | x :: xs, seen => by
    simp only [dropDupByName]
    split
    · rename_i hx
      rw [countP_dropDupByName t xs seen]
      by_cases ht : t = x.movie_name
      · subst ht
        simp [hx]
      · simp [List.mem_cons, ht, fun h : t ∈ _ => ht]
    · rename_i hx
      rw [List.countP_cons, countP_dropDupByName t xs (x.movie_name :: seen)]
      by_cases ht : t = x.movie_name
      · subst ht
        simp [hx, List.mem_cons]
      · have hne : ¬ (x.movie_name == t) = true := by
          simp only [beq_iff_eq]
          exact fun h => ht h.symm
        simp [List.mem_cons, ht, hne]

/-! ### Decomposition helpers for sorted lists -/

theorem cons_sublist_decomp {α : Type} {a : α} {l s : List α}
    (h : List.Sublist (a :: l) s) :
    ∃ u v, s = u ++ a :: v ∧ List.Sublist l v := by
  induction s with
  | nil => exact absurd h (by simp)
  | cons b s' ih =>
    cases h with
    | cons _ h' =>
      obtain ⟨u, v, rfl, hlv⟩ := ih h'
      exact ⟨b :: u, v, rfl, hlv⟩
    | cons₂ _ h' => exact ⟨[], s', rfl, h'⟩

/-- If a list decomposes as `u ++ x :: v` with `p x` true and the found
element `r` not in `u`, then `find? p` found exactly `x`. -/
theorem find?_first_of_decomp {α : Type} (p : α → Bool) :
    ∀ (u : List α) {v : List α} {x r : α},
      (u ++ x :: v).find? p = some r → p x → r ∉ u → r = x
  | [], v, x, r, hf, hp, _ => by
    rw [List.nil_append, List.find?_cons_of_pos _ hp] at hf
    injection hf with hf
    exact hf.symm
  | a :: u, v, x, r, hf, hp, hru => by
    by_cases ha : p a
    · rw [List.cons_append, List.find?_cons_of_pos _ ha] at hf
      injection hf with hf
      exact absurd (hf ▸ List.mem_cons_self a u) hru
    · rw [List.cons_append, List.find?_cons_of_neg _ ha] at hf
      exact find?_first_of_decomp p u hf hp
        (fun hc => hru (List.mem_cons_of_mem _ hc))

/-- In a `dedupLE`-sorted list, the first row of a given movie name carries
the maximal `fillna(-1)` rating among the rows of that name. -/
theorem max_of_find?_sorted {s : List DiaryRecord}
    (hs : s.Pairwise (dedupLE · ·)) {r : DiaryRecord}
    (hf : s.find? (fun y => y.movie_name == r.movie_name) = some r) :
    ∀ y ∈ s, y.movie_name = r.movie_name → ratingSort y ≤ ratingSort r := by
  rw [List.find?_eq_some] at hf
  obtain ⟨-, as, bs, rfl, hpre⟩ := hf
  intro y hy hyname
  rcases List.mem_append.mp hy with hy | hy
  · have := hpre y hy
    simp [hyname] at this
  · rcases List.mem_cons.mp hy with rfl | hy
    · exact le_refl _
    · have hrel : dedupLE r y := by
        have hp2 := (List.pairwise_append.mp hs).2.1
        exact (List.pairwise_cons.mp hp2).1 y hy
      rw [dedupLE_of_name_eq hyname.symm] at hrel
      exact of_decide_eq_true hrel

theorem firstArgmax_eq_find? (records : List DiaryRecord) (t : String) :
    firstArgmax records t = records.find? (argmaxPred records t) := rfl

/-- Bridge lemma: in the stably sorted dataframe, the first row of movie
name `t` is the first row of `records` (in original order) attaining the
maximal `fillna(-1)` rating among the rows named `t`. -/
theorem find?_sortRows_eq_firstArgmax (records : List DiaryRecord)
    (t : String) :
    (sortRows dedupLE records).find? (fun y => y.movie_name == t) =
      firstArgmax records t := by
  have hperm := sortRows_perm dedupLE records
  have hpair := pairwise_sortRows dedupLE_total
    (fun {a b c} => dedupLE_trans) records
  by_cases hex : ∃ x ∈ records, x.movie_name = t
  case neg =>
    have h1 : (sortRows dedupLE records).find?
        (fun y => y.movie_name == t) = none := by
      rw [List.find?_eq_none]
      intro y hy
      simp only [beq_iff_eq]
      exact fun hc => hex ⟨y, hperm.mem_iff.mp hy, hc⟩
    have h2 : firstArgmax records t = none := by
      rw [firstArgmax_eq_find?, List.find?_eq_none]
      intro x hx
      simp only [argmaxPred, Bool.and_eq_true, beq_iff_eq, not_and]
      exact fun hc _ => hex ⟨x, hx, hc⟩
    rw [h1, h2]
  case pos =>
    obtain ⟨x0, hx0mem, hx0name⟩ := hex
    have hsome : ((sortRows dedupLE records).find?
        (fun y => y.movie_name == t)).isSome := by
      rw [List.find?_isSome]
      exact ⟨x0, hperm.mem_iff.mpr hx0mem, by simp [hx0name]⟩
    obtain ⟨w, hw⟩ := Option.isSome_iff_exists.mp hsome
    rw [hw]
    have hwname : w.movie_name = t := by simpa using List.find?_some hw
    have hwmem : w ∈ records := hperm.mem_iff.mp (List.mem_of_find?_eq_some hw)
    have hwmax : ∀ y ∈ records, y.movie_name = t →
        ratingSort y ≤ ratingSort w := by
      intro y hy hyname
      have hw' : (sortRows dedupLE records).find?
          (fun y => y.movie_name == w.movie_name) = some w := by
        rw [hwname]
        exact hw
      exact max_of_find?_sorted hpair hw' y (hperm.mem_iff.mpr hy)
        (by rw [hyname, hwname])
    have hwpredA : argmaxPred records t w = true := by
      simp only [argmaxPred, Bool.and_eq_true, beq_iff_eq, List.all_eq_true]
      refine ⟨hwname, ?_⟩
      intro y hy
      have hy' := List.mem_filter.mp hy
      exact decide_eq_true (hwmax y hy'.1 (by simpa using hy'.2))
    have hfsome : (firstArgmax records t).isSome := by
      rw [firstArgmax_eq_find?, List.find?_isSome]
      exact ⟨w, hwmem, hwpredA⟩
    obtain ⟨x1, hx1⟩ := Option.isSome_iff_exists.mp hfsome
    rw [hx1]
    rw [firstArgmax_eq_find?] at hx1
    have hx1pred := List.find?_some hx1
    simp only [argmaxPred, Bool.and_eq_true, beq_iff_eq,
      List.all_eq_true] at hx1pred
    obtain ⟨hx1name, hx1all⟩ := hx1pred
    have hx1mem : x1 ∈ records := List.mem_of_find?_eq_some hx1
    have hr1 : ratingSort w ≤ ratingSort x1 := by
      have := hx1all w (List.mem_filter.mpr ⟨hwmem, by simp [hwname]⟩)
      exact of_decide_eq_true this
    by_cases hwx : w = x1
    · rw [hwx]
    exfalso
    rw [List.find?_eq_some] at hx1
    obtain ⟨-, l1, l2, hrecords, hl1⟩ := hx1
    have hwl1 : w ∉ l1 := by
      intro hc
      have hne := hl1 w hc
      rw [hwpredA] at hne
      simp at hne
    have hx1w : ¬ (x1 == w) = true := by
      simp only [beq_iff_eq]
      exact fun hc => hwx hc.symm
    have hcount_rec : List.count w records = List.count w l2 := by
      rw [hrecords, List.count_append, List.count_cons,
        List.count_eq_zero.mpr hwl1, if_neg hx1w]
      omega
    have hrep : List.Sublist (List.replicate (List.count w l2) w) l2 :=
      List.le_count_iff_replicate_sublist.mp (le_refl _)
    have hcsub : List.Sublist (x1 :: List.replicate (List.count w l2) w)
        records := by
      rw [hrecords]
      exact (hrep.cons₂ x1).trans (List.sublist_append_right l1 _)
    have hcpair : (x1 :: List.replicate (List.count w l2) w).Pairwise
        (dedupLE · ·) := by
      rw [List.pairwise_cons]
      constructor
      · intro b hb
        rw [List.eq_of_mem_replicate hb,
          dedupLE_of_name_eq (hx1name.trans hwname.symm)]
        exact decide_eq_true hr1
      · rw [List.pairwise_replicate]
        refine Or.inr ?_
        rw [dedupLE_of_name_eq rfl]
        exact decide_eq_true (le_refl _)
    have hcsorted := sublist_sortRows hcsub hcpair
    obtain ⟨u, v, hs, hrepv⟩ := cons_sublist_decomp hcsorted
    have hcount_s : List.count w (sortRows dedupLE records)
        = List.count w l2 := by
      rw [hperm.count_eq, hcount_rec]
    have hwu : w ∉ u := by
      rw [hs, List.count_append, List.count_cons, if_neg hx1w] at hcount_s
      have hv := hrepv.count_le w
      rw [List.count_replicate_self] at hv
      rw [← List.count_eq_zero (a := w) (l := u)] at *
      omega
    have hfinal := find?_first_of_decomp (fun y => y.movie_name == t) u
      (hs ▸ hw) (by simp [hx1name]) hwu
    exact hwx hfinal

/-- Membership in the deduplicated dataframe is exactly being the first
maximal-rating row of one's movie name. -/
theorem mem_df_unique_iff {records : List DiaryRecord} {r : DiaryRecord} :
    r ∈ df_unique records ↔ firstArgmax records r.movie_name = some r := by
  rw [df_unique, mem_dropDupByName_iff, find?_sortRows_eq_firstArgmax]
  simp

/-- **C1.** For every input record set and every title, the record selected
into the deduplicated (canonical) set for that title carries the maximum
rating among all records of that title, where an absent (NaN) rating is
treated as lower than any numeric rating in [0, 5].  (The hypothesis
`hval` reflects the data model: Letterboxd ratings are in [0, 5]; the code
realises "absent is lowest" via `fillna(-1)`, so nonnegativity of the
numeric ratings is what makes the two orderings agree.) -/
theorem canonical_rating_max (records : List DiaryRecord) (r : DiaryRecord)
    (hmem : r ∈ df_unique records)
    (hval : ∀ x ∈ records, ∀ q : ℚ, x.rating = some q → 0 ≤ q) :
    ∀ x ∈ records, x.movie_name = r.movie_name →
      optRatingLE x.rating r.rating := by
  intro x hx hname
  have hfa := mem_df_unique_iff.mp hmem
  rw [firstArgmax_eq_find?] at hfa
  have hpred := List.find?_some hfa
  simp only [argmaxPred, Bool.and_eq_true, beq_iff_eq,
    List.all_eq_true] at hpred
  have hle : ratingSort x ≤ ratingSort r := by
    have := hpred.2 x (List.mem_filter.mpr ⟨hx, by simp [hname]⟩)
    exact of_decide_eq_true this
  cases hxr : x.rating with
  | none => simp [optRatingLE]
  | some a =>
    cases hrr : r.rating with
    | none =>
      exfalso
      simp only [ratingSort, hxr, hrr, Option.getD_some, Option.getD_none]
        at hle
      have := hval x hx a hxr
      linarith
    | some b =>
      simp only [ratingSort, hxr, hrr, Option.getD_some] at hle
      simpa [optRatingLE] using hle

/-- Witness for C1 on a concrete diary: the canonical row for "a" is the
3-star watch, and it dominates every row of that title. -/
theorem canonical_rating_max_witness :
    ((⟨"a", some 3, none, []⟩ : DiaryRecord) ∈
        df_unique [⟨"a", some 1, none, []⟩, ⟨"a", some 3, none, []⟩,
          ⟨"b", none, none, []⟩]) ∧
    (∀ x ∈ ([⟨"a", some 1, none, []⟩, ⟨"a", some 3, none, []⟩,
          ⟨"b", none, none, []⟩] : List DiaryRecord),
        x.movie_name = (⟨"a", some 3, none, []⟩ : DiaryRecord).movie_name →
          optRatingLE x.rating (⟨"a", some 3, none, []⟩ : DiaryRecord).rating) :=
  ⟨by decide, canonical_rating_max _ _ (by decide) (by decide)⟩

/-- **C2.** When two or more records of the same title share the same
maximum `fillna(-1)` rating (including all-absent ratings), the record
chosen into the canonical set is the first such record in the original
input order: scanning `records` in order, the first row of the canonical
record's title whose rating is at least the canonical one is the canonical
record itself. -/
theorem canonical_tie_first (records : List DiaryRecord) (r : DiaryRecord)
    (hmem : r ∈ df_unique records) :
    records.find? (fun x => x.movie_name == r.movie_name &&
      decide (ratingSort r ≤ ratingSort x)) = some r := by
  have hfa := mem_df_unique_iff.mp hmem
  rw [firstArgmax_eq_find?] at hfa
  have hpredr := List.find?_some hfa
  simp only [argmaxPred, Bool.and_eq_true, beq_iff_eq,
    List.all_eq_true] at hpredr
  rw [List.find?_eq_some] at hfa
  obtain ⟨-, l1, l2, hdecomp, hl1⟩ := hfa
  rw [List.find?_eq_some]
  refine ⟨by simp, l1, l2, hdecomp, ?_⟩
  intro a ha
  have hnotmax := hl1 a ha
  rw [Bool.not_eq_true'] 
  by_cases hname : a.movie_name = r.movie_name
  · by_cases hge : ratingSort r ≤ ratingSort a
    · exfalso
      have hamem : a ∈ records := by
        rw [hdecomp]
        exact List.mem_append_left _ ha
      have hale : ratingSort a ≤ ratingSort r := by
        have := hpredr.2 a (List.mem_filter.mpr ⟨hamem, by simp [hname]⟩)
        exact of_decide_eq_true this
      have heq : ratingSort a = ratingSort r := le_antisymm hale hge
      have hpa : argmaxPred records r.movie_name a = true := by
        simp only [argmaxPred, Bool.and_eq_true, beq_iff_eq,
          List.all_eq_true]
        refine ⟨hname, ?_⟩
        intro y hy
        exact decide_eq_true (heq ▸ of_decide_eq_true (hpredr.2 y hy))
      rw [hpa] at hnotmax
      simp at hnotmax
    · simp [hge]
  · simp [hname]

/-- Witness for C2 on a concrete diary with a rating tie: the canonical
row is the first of the two tied rows, distinguishable by `avg_rating`. -/
theorem canonical_tie_first_witness :
    ((⟨"a", some 3, some 1, []⟩ : DiaryRecord) ∈
        df_unique [⟨"a", some 3, some 1, []⟩, ⟨"a", some 3, some 2, []⟩]) ∧
    ([⟨"a", some 3, some 1, []⟩, ⟨"a", some 3, some 2, []⟩] :
        List DiaryRecord).find?
      (fun x => x.movie_name == (⟨"a", some 3, some 1, []⟩ :
          DiaryRecord).movie_name &&
        decide (ratingSort (⟨"a", some 3, some 1, []⟩ : DiaryRecord) ≤
          ratingSort x)) = some ⟨"a", some 3, some 1, []⟩ :=
  ⟨by decide, canonical_tie_first _ _ (by decide)⟩

/-- **C3.** The deduplicated (canonical) set contains exactly one record
per distinct title occurring in the full set (count 1 for occurring
titles, 0 otherwise), and its size is at most the size of the full set. -/
theorem canonical_unique_per_title (records : List DiaryRecord) :
    (df_unique records).length ≤ records.length ∧
    ∀ t : String,
      (df_unique records).countP (fun r => r.movie_name == t) =
        if t ∈ records.map (fun r => r.movie_name) then 1 else 0 := by
  constructor
  · have h1 := (dropDupByName_sublist (sortRows dedupLE records) []).length_le
    rw [(sortRows_perm dedupLE records).length_eq] at h1
    exact h1
  · intro t
    rw [df_unique, countP_dropDupByName]
    have hmap : t ∈ (sortRows dedupLE records).map (fun r => r.movie_name) ↔
        t ∈ records.map (fun r => r.movie_name) :=
      ((sortRows_perm dedupLE records).map _).mem_iff
    simp [hmap]

/-- **C7.** Every scoring function returns 0.0 at zero count (and at an
absent average rating), and the average of an empty ratings list is absent
(`None`) rather than an error: the `count == 0` / `if ratings` guards fire
before any division is attempted. -/
theorem zero_count_guards :
    (∀ a : Option ℝ, weighted_average_score a 0 = 0) ∧
    (∀ a : Option ℝ, bayesian_average_score a 0 = 0) ∧
    (∀ a : ℝ, wilson_score a 0 = 0) ∧
    avgRatingOf [] = none := by
  refine ⟨?_, ?_, ?_, by simp [avgRatingOf]⟩
  · intro a
    cases a <;> simp [weighted_average_score]
  · intro a
    cases a <;> simp [bayesian_average_score]
  · intro a
    simp [wilson_score]

/-- The retry loop returns no body and spends all remaining attempts when
every response is a 429. -/
theorem fetchWithRetryAux_429 (resp : ℕ → FetchOutcome)
    (h : ∀ i, ∃ b, resp i = FetchOutcome.response 429 b) :
    ∀ (fuel attempt : ℕ),
      fetchWithRetryAux resp attempt fuel = (none, attempt + fuel)
  | 0, attempt => rfl
  | fuel + 1, attempt => by
    obtain ⟨b, hb⟩ := h attempt
    rw [fetchWithRetryAux, hb]
    simp only [if_neg (by omega : ¬ (429 : ℕ) = 200), if_pos rfl]
    rw [fetchWithRetryAux_429 resp h fuel (attempt + 1)]
    have hn : attempt + 1 + fuel = attempt + (fuel + 1) := by omega
    rw [hn]
    simp

/-- **C8.** If the origin returns HTTP 429 on every attempt, the detail
fetcher makes exactly 3 attempts and then returns an absent body to its
caller; the loop terminates normally (absence, not an exception). -/
theorem fetch_with_retry_429 (resp : ℕ → FetchOutcome)
    (h : ∀ i, ∃ b, resp i = FetchOutcome.response 429 b) :
    fetch_with_retry resp 3 = (none, 3) :=
  fetchWithRetryAux_429 resp h 3 0

/-- Witness for C8: a concrete origin that always answers 429. -/
theorem fetch_with_retry_429_witness :
    fetch_with_retry (fun _ => FetchOutcome.response 429 "") 3 = (none, 3) :=
  fetch_with_retry_429 _ (fun _ => ⟨"", rfl⟩)

/-- Closed form of the `aggregate_list_field` row loop, for an arbitrary
initial accumulator. -/
theorem aggregate_list_field_go (field : DiaryRecord → List String)
    (v : String) :
    ∀ (records : List DiaryRecord) (c : ℕ) (l : List ℚ),
      records.foldl (fun acc r =>
        let occ := ((field r).filter (fun i => i ≠ "")).count v
        (acc.1 + occ,
          acc.2 ++ (match r.rating with
            | some q => List.replicate occ q
            | none => []))) (c, l) =
        (c + (records.map
            (fun r => ((field r).filter (fun i => i ≠ "")).count v)).sum,
          l ++ records.flatMap (fun r =>
            match r.rating with
            | some q =>
              List.replicate (((field r).filter (fun i => i ≠ "")).count v) q
            | none => []))
  | [], c, l => by simp
  | r :: rs, c, l => by
    rw [List.foldl_cons, aggregate_list_field_go field v rs]
    simp [List.flatMap_cons, List.append_assoc, Nat.add_assoc]

/-- `aggregate_list_field` computes, per facet value, the total number of
occurrences across rows and the concatenated per-occurrence ratings. -/
theorem aggregate_list_field_eq (field : DiaryRecord → List String)
    (records : List DiaryRecord) (v : String) :
    aggregate_list_field field records v =
      ((records.map
          (fun r => ((field r).filter (fun i => i ≠ "")).count v)).sum,
        records.flatMap (fun r =>
          match r.rating with
          | some q =>
            List.replicate (((field r).filter (fun i => i ≠ "")).count v) q
          | none => [])) := by
  rw [aggregate_list_field, aggregate_list_field_go]
  simp

/-- Closed form of the `aggregate_single_field` row loop (for a non-empty
facet value `v`), for an arbitrary initial accumulator. -/
theorem aggregate_single_field_go (field : DiaryRecord → Option String)
    (v : String) (hv : v ≠ "") :
    ∀ (records : List DiaryRecord) (init : ℕ × List ℚ),
      records.foldl (fun acc r =>
        match field r with
        | none => acc
        | some s =>
          if s = "" then acc
          else if s = v then
            (acc.1 + 1,
              acc.2 ++ (match r.rating with | some q => [q] | none => []))
          else acc) init =
        (init.1 + records.countP (fun r => field r == some v),
          init.2 ++ (records.filter (fun r => field r == some v)).filterMap
            (fun r => r.rating))
  | [], init => by simp
  | r :: rs, init => by
    rw [List.foldl_cons, aggregate_single_field_go field v hv rs]
    cases hf : field r with
    | none =>
      have hpred : (field r == some v) = false := by simp [hf]
      simp [hf, List.countP_cons, List.filter_cons, hpred]
    | some s =>
      by_cases hs : s = ""
      · subst hs
        simp [hf, List.countP_cons, List.filter_cons, Ne.symm hv]
      · by_cases hsv : s = v
        · have hpred : (field r == some v) = true := by simp [hf, hsv]
          cases hr : r.rating <;>
            (simp [hf, hs, hsv, hv, List.countP_cons, List.filter_cons, hpred,
              hr, List.append_assoc]; omega)
        · have hpred : (field r == some v) = false := by simp [hf, hsv]
          simp [hf, hs, hsv, hv, List.countP_cons, List.filter_cons, hpred]

/-- For a duplicate-free item list, the per-row occurrence count of a
non-empty value is its membership indicator. -/
theorem count_filter_nodup {items : List String} (hnd : items.Nodup)
    {v : String} (hv : v ≠ "") :
    (items.filter (fun i => i ≠ "")).count v =
      if v ∈ items then 1 else 0 := by
  rw [List.count_filter (by simp [hv])]
  split
  · exact List.count_eq_one_of_mem hnd (by assumption)
  · exact List.count_eq_zero.mpr (by assumption)

/-- Under the deduplicated-lists invariant, the summed occurrence counts
are the number of rows containing the value. -/
theorem sum_count_eq_countP (field1 : DiaryRecord → List String)
    (v : String) (hv : v ≠ "") :
    ∀ records : List DiaryRecord, (∀ r ∈ records, (field1 r).Nodup) →
      (records.map
        (fun r => ((field1 r).filter (fun i => i ≠ "")).count v)).sum =
        records.countP (fun r => decide (v ∈ field1 r))
  | [], _ => by simp
  | r :: rs, hnd => by
    rw [List.map_cons, List.sum_cons, List.countP_cons,
      count_filter_nodup (hnd r (List.mem_cons_self r rs)) hv,
      sum_count_eq_countP field1 v hv rs
        (fun x hx => hnd x (List.mem_cons_of_mem r hx))]
    by_cases hmem : v ∈ field1 r <;> simp [hmem] <;> omega

/-- Under the deduplicated-lists invariant, the concatenated per-occurrence
ratings are exactly the present ratings of the rows containing the value. -/
theorem flatMap_ratings_eq (field1 : DiaryRecord → List String)
    (v : String) (hv : v ≠ "") :
    ∀ records : List DiaryRecord, (∀ r ∈ records, (field1 r).Nodup) →
      (records.flatMap (fun r =>
        match r.rating with
        | some q =>
          List.replicate (((field1 r).filter (fun i => i ≠ "")).count v) q
        | none => [])) =
        (records.filter (fun r => decide (v ∈ field1 r))).filterMap
          (fun r => r.rating)
  | [], _ => by simp
  | r :: rs, hnd => by
    rw [List.flatMap_cons, List.filter_cons,
      flatMap_ratings_eq field1 v hv rs
        (fun x hx => hnd x (List.mem_cons_of_mem r hx)),
      count_filter_nodup (hnd r (List.mem_cons_self r rs)) hv]
    by_cases hmem : v ∈ field1 r
    · cases hr : r.rating <;> simp [hmem, hr]
    · cases hr : r.rating <;> simp [hmem, hr]

/-- **C6.** For every canonical record set and every (non-empty) facet
value: the facet aggregate's count equals the number of records containing
the value (list facet, assuming the data-model invariant that per-record
item lists are deduplicated) respectively whose field equals the value
(single facet); its ratings list contains exactly the numeric ratings of
those records, absent ratings excluded; and the derived average rating is
null exactly when no numeric rating contributed. -/
theorem facet_aggregate_correct (field1 : DiaryRecord → List String)
    (field2 : DiaryRecord → Option String) (records : List DiaryRecord)
    (v : String) (hv : v ≠ "")
    (hnd : ∀ r ∈ records, (field1 r).Nodup) :
    (aggregate_list_field field1 records v).1 =
        records.countP (fun r => decide (v ∈ field1 r)) ∧
    (aggregate_list_field field1 records v).2 =
        (records.filter (fun r => decide (v ∈ field1 r))).filterMap
          (fun r => r.rating) ∧
    (avgRatingOf (aggregate_list_field field1 records v).2 = none ↔
        ∀ r ∈ records, v ∈ field1 r → r.rating = none) ∧
    (aggregate_single_field field2 records v).1 =
        records.countP (fun r => field2 r == some v) ∧
    (aggregate_single_field field2 records v).2 =
        (records.filter (fun r => field2 r == some v)).filterMap
          (fun r => r.rating) := by
  have h1 : (aggregate_list_field field1 records v).1 =
      records.countP (fun r => decide (v ∈ field1 r)) := by
    rw [aggregate_list_field_eq]
    exact sum_count_eq_countP field1 v hv records hnd
  have h2 : (aggregate_list_field field1 records v).2 =
      (records.filter (fun r => decide (v ∈ field1 r))).filterMap
        (fun r => r.rating) := by
    rw [aggregate_list_field_eq]
    exact flatMap_ratings_eq field1 v hv records hnd
  refine ⟨h1, h2, ?_, ?_, ?_⟩
  · rw [h2, avgRatingOf]
    constructor
    · intro h
      split at h
      · rename_i hnil
        intro r hr hmemr
        exact List.filterMap_eq_nil_iff.mp hnil r
          (List.mem_filter.mpr ⟨hr, by simp [hmemr]⟩)
      · exact absurd h (by simp)
    · intro h
      rw [if_pos]
      rw [List.filterMap_eq_nil_iff]
      intro r hr
      have hr' := List.mem_filter.mp hr
      exact h r hr'.1 (by simpa using hr'.2)
  · rw [aggregate_single_field, aggregate_single_field_go field2 v hv]
    simp
  · rw [aggregate_single_field, aggregate_single_field_go field2 v hv]
    simp

/-- Witness for C6 on a concrete canonical set: two films list director
"D", one of them rated; the `language`-style single facet is read off the
head of the director list. -/
theorem facet_aggregate_correct_witness :
    (("D" : String) ≠ "") ∧
    (∀ r ∈ ([⟨"a", some 4, none, ["D"]⟩, ⟨"b", none, none, ["D", "E"]⟩] :
        List DiaryRecord), (r.directors).Nodup) ∧
    ((aggregate_list_field (fun r => r.directors)
        [⟨"a", some 4, none, ["D"]⟩, ⟨"b", none, none, ["D", "E"]⟩] "D").1 =
      ([⟨"a", some 4, none, ["D"]⟩, ⟨"b", none, none, ["D", "E"]⟩] :
        List DiaryRecord).countP (fun r => decide ("D" ∈ r.directors)) ∧
    (aggregate_list_field (fun r => r.directors)
        [⟨"a", some 4, none, ["D"]⟩, ⟨"b", none, none, ["D", "E"]⟩] "D").2 =
      (([⟨"a", some 4, none, ["D"]⟩, ⟨"b", none, none, ["D", "E"]⟩] :
          List DiaryRecord).filter
        (fun r => decide ("D" ∈ r.directors))).filterMap (fun r => r.rating) ∧
    (avgRatingOf (aggregate_list_field (fun r => r.directors)
        [⟨"a", some 4, none, ["D"]⟩, ⟨"b", none, none, ["D", "E"]⟩] "D").2 =
          none ↔
      ∀ r ∈ ([⟨"a", some 4, none, ["D"]⟩, ⟨"b", none, none, ["D", "E"]⟩] :
          List DiaryRecord), "D" ∈ r.directors → r.rating = none) ∧
    (aggregate_single_field (fun r => r.directors.head?)
        [⟨"a", some 4, none, ["D"]⟩, ⟨"b", none, none, ["D", "E"]⟩] "D").1 =
      ([⟨"a", some 4, none, ["D"]⟩, ⟨"b", none, none, ["D", "E"]⟩] :
        List DiaryRecord).countP (fun r => r.directors.head? == some "D") ∧
    (aggregate_single_field (fun r => r.directors.head?)
        [⟨"a", some 4, none, ["D"]⟩, ⟨"b", none, none, ["D", "E"]⟩] "D").2 =
      (([⟨"a", some 4, none, ["D"]⟩, ⟨"b", none, none, ["D", "E"]⟩] :
          List DiaryRecord).filter
        (fun r => r.directors.head? == some "D")).filterMap
          (fun r => r.rating)) :=
  ⟨by decide, by decide,
    facet_aggregate_correct (fun r => r.directors)
      (fun r => r.directors.head?) _ "D" (by decide) (by decide)⟩

/-- `wilson_score` at positive count equals the clamped, rescaled
cleared-denominator Wilson lower bound `wilsonL`. -/
theorem wilson_score_eq (a : ℝ) (n : ℕ) (hn : 0 < n) (ha0 : 0 ≤ a)
    (ha5 : a ≤ 5) :
    wilson_score a n = max 0 (min 5 (5 * wilsonL (a / 5) n)) := by
  have hN : (0:ℝ) < (n:ℝ) := by exact_mod_cast hn
  have hNne : (n:ℝ) ≠ 0 := hN.ne'
  have hp0 : 0 ≤ a / 5 := by positivity
  have hp1 : a / 5 ≤ 1 := by
    rw [div_le_one (by norm_num : (0:ℝ) < 5)]
    exact ha5
  have hq : 0 ≤ (a/5) * (1 - a/5) := mul_nonneg hp0 (by linarith)
  have hS : 0 ≤ (1.96:ℝ)^2 * ((a/5) * (1 - a/5)) * n + ((1.96:ℝ)^2)^2/4 :=
    add_nonneg (mul_nonneg (mul_nonneg (sq_nonneg _) hq) hN.le) (by positivity)
  rw [wilson_score, if_neg hn.ne']
  dsimp only
  have h1 : (1.96:ℝ) * Real.sqrt ((a/5) * (1 - a/5) / n + 1.96 * 1.96 / (4 * n * n)) =
      Real.sqrt ((1.96:ℝ)^2 * ((a/5) * (1 - a/5) / n + 1.96 * 1.96 / (4 * n * n))) := by
    rw [Real.sqrt_mul (sq_nonneg _), Real.sqrt_sq (by norm_num : (0:ℝ) ≤ 1.96)]
  have h2 : (1.96:ℝ)^2 * ((a/5) * (1 - a/5) / n + 1.96 * 1.96 / (4 * n * n)) =
      ((1.96:ℝ)^2 * ((a/5) * (1 - a/5)) * n + ((1.96:ℝ)^2)^2/4) / (n:ℝ)^2 := by
    field_simp
    ring
  have h3 : Real.sqrt (((1.96:ℝ)^2 * ((a/5) * (1 - a/5)) * n + ((1.96:ℝ)^2)^2/4) / (n:ℝ)^2) =
      Real.sqrt ((1.96:ℝ)^2 * ((a/5) * (1 - a/5)) * n + ((1.96:ℝ)^2)^2/4) / n := by
    rw [Real.sqrt_div hS, Real.sqrt_sq hN.le]
  have hd1 : (1:ℝ) + 1.96 * 1.96 / n ≠ 0 := by positivity
  have hd2 : (n:ℝ) + 1.96^2 ≠ 0 := by positivity
  rw [wilsonL, h1, h2, h3]
  generalize Real.sqrt ((1.96:ℝ)^2 * ((a/5) * (1 - a/5)) * n + ((1.96:ℝ)^2)^2/4) = s
  congr 2
  field_simp
  ring


set_option maxHeartbeats 2000000 in
/-- One-step monotonicity of the Wilson lower bound in cleared form, for an
arbitrary positive z-squared constant `A`. -/
theorem wilson_step (A : ℝ) (hApos : 0 < A) (p : ℝ) (hp0 : 0 ≤ p)
    (hp1 : p ≤ 1) (N : ℝ) (hNpos : 0 < N) :
    (N * p + A/2 - Real.sqrt (A * (p * (1 - p)) * N + A^2/4)) / (N + A) ≤
      ((N + 1) * p + A/2 - Real.sqrt (A * (p * (1 - p)) * (N + 1) + A^2/4)) /
        (N + 1 + A) := by
  have hq0 : 0 ≤ p * (1 - p) := mul_nonneg hp0 (by linarith)
  have hq14 : p * (1 - p) ≤ 1/4 := by nlinarith [sq_nonneg (p - 1/2)]
  have harg1 : 0 ≤ A * (p * (1 - p)) * N + A^2/4 :=
    add_nonneg (mul_nonneg (mul_nonneg hApos.le hq0) hNpos.le) (by positivity)
  have harg2 : 0 ≤ A * (p * (1 - p)) * (N + 1) + A^2/4 :=
    add_nonneg (mul_nonneg (mul_nonneg hApos.le hq0) (by linarith)) (by positivity)
  set S1 := Real.sqrt (A * (p * (1 - p)) * N + A ^ 2 / 4) with hS1def
  set S2 := Real.sqrt (A * (p * (1 - p)) * (N + 1) + A ^ 2 / 4) with hS2def
  have hS1sq : S1^2 = A * (p * (1 - p)) * N + A^2/4 := Real.sq_sqrt harg1
  have hS2sq : S2^2 = A * (p * (1 - p)) * (N + 1) + A^2/4 := Real.sq_sqrt harg2
  have hS1half : A/2 ≤ S1 := by
    rw [hS1def, show A/2 = Real.sqrt ((A/2)^2) from
      (Real.sqrt_sq (by positivity)).symm]
    apply Real.sqrt_le_sqrt
    nlinarith [mul_nonneg (mul_nonneg hApos.le hq0) hNpos.le]
  have hS1nonneg : 0 ≤ S1 := le_trans (by positivity) hS1half
  have hS2nonneg : 0 ≤ S2 := Real.sqrt_nonneg _
  have hstar : 0 ≤ A/2 + (p*(1-p))*(N - A) + (2*p - 1) * S1 := by
    rcases le_or_lt (1/2) p with hp | hp
    · nlinarith [mul_le_mul_of_nonneg_left hS1half
        (by linarith : (0:ℝ) ≤ 2*p - 1),
        mul_nonneg hq0 hNpos.le,
        mul_le_mul_of_nonneg_right hq14 hApos.le]
    · have hR : 0 ≤ A/2 + (p*(1-p))*(N - A) := by
        nlinarith [mul_nonneg hq0 hNpos.le,
          mul_le_mul_of_nonneg_right hq14 hApos.le]
      have h12p : 0 ≤ 1 - 2*p := by linarith
      have hX : ((1 - 2*p) * S1)^2 ≤ (A/2 + (p*(1-p))*(N - A))^2 := by
        have hfact : ((1-2*p) * S1)^2 = (1-2*p)^2 * S1^2 := by ring
        rw [hfact, hS1sq]
        nlinarith [sq_nonneg ((p*(1-p))*(N + A))]
      have hle : (1 - 2*p) * S1 ≤ A/2 + (p*(1-p))*(N - A) := by
        nlinarith [hX, mul_nonneg h12p hS1nonneg, hR]
      linarith
  have hcpos : 0 < A * (p - 1/2) + S1 * (N + 1 + A) := by
    nlinarith [mul_le_mul_of_nonneg_right hS1half
      (by linarith : (0:ℝ) ≤ N + 1 + A),
      mul_nonneg hApos.le hp0]
  have hiden : (A * (p - 1/2) + S1 * (N + 1 + A))^2 - S2^2 * (N+A)^2 =
      A * (N+1+A) * (A/2 + (p*(1-p))*(N - A) + (2*p - 1) * S1) := by
    linear_combination ((N+1+A)^2) * hS1sq - ((N+A)^2) * hS2sq
  have hynn : 0 ≤ S2 * (N + A) := mul_nonneg hS2nonneg (by linarith)
  have h2 : 0 ≤ A * (N+1+A) * (A/2 + (p*(1-p))*(N - A) + (2*p - 1) * S1) :=
    mul_nonneg (mul_nonneg hApos.le (by linarith)) hstar
  have h3 : (S2 * (N+A))^2 ≤ (A * (p - 1/2) + S1 * (N + 1 + A))^2 := by
    have h1 : (S2*(N+A))^2 = S2^2*(N+A)^2 := by ring
    rw [h1]
    linarith [hiden, h2]
  have hkey : S2 * (N + A) ≤ A * (p - 1/2) + S1 * (N + 1 + A) := by
    have h4 := Real.sqrt_le_sqrt h3
    rwa [Real.sqrt_sq hynn, Real.sqrt_sq hcpos.le] at h4
  rw [div_le_div_iff₀ (by positivity) (by positivity)]
  linarith [hkey]

/-- One-step monotonicity of `wilsonL` at the code's `z = 1.96`. -/
theorem wilsonL_le_succ (p : ℝ) (hp0 : 0 ≤ p) (hp1 : p ≤ 1) (n : ℕ)
    (hn : 0 < n) : wilsonL p n ≤ wilsonL p (n + 1) := by
  have hN : (0:ℝ) < (n:ℝ) := by exact_mod_cast hn
  have h := wilson_step ((1.96:ℝ)^2) (by norm_num) p hp0 hp1 ((n:ℝ)) hN
  rw [wilsonL, wilsonL]
  push_cast
  exact h

/-- `wilsonL` is monotone in the count. -/
theorem wilsonL_mono (p : ℝ) (hp0 : 0 ≤ p) (hp1 : p ≤ 1) {n m : ℕ}
    (hn : 0 < n) (hnm : n ≤ m) : wilsonL p n ≤ wilsonL p m := by
  induction m, hnm using Nat.le_induction with
  | base => exact le_refl _
  | succ m hm ih =>
    exact le_trans ih (wilsonL_le_succ p hp0 hp1 m (lt_of_lt_of_le hn hm))

/-- The Wilson score is monotonically non-decreasing in the count for a
fixed average rating in [0, 5]. -/
theorem wilson_score_mono (a : ℝ) (ha0 : 0 ≤ a) (ha5 : a ≤ 5) {n m : ℕ}
    (hn : 0 < n) (hnm : n ≤ m) : wilson_score a n ≤ wilson_score a m := by
  rw [wilson_score_eq a n hn ha0 ha5,
    wilson_score_eq a m (lt_of_lt_of_le hn hnm) ha0 ha5]
  have hp0 : 0 ≤ a/5 := by positivity
  have hp1 : a/5 ≤ 1 := by
    rw [div_le_one (by norm_num : (0:ℝ) < 5)]
    exact ha5
  have h := wilsonL_mono (a/5) hp0 hp1 hn hnm
  exact max_le_max (le_refl 0) (min_le_min (le_refl 5) (by linarith))

/-- **C5.** For every avg_rating in [0, 5] and every finite positive
count, the Wilson score (lower Wilson bound on `avg_rating / 5` with
`z = 1.96`, rescaled to 0-5 and clamped) is at most the raw avg_rating. -/
theorem wilson_le_avg (a : ℝ) (n : ℕ) (hn : 0 < n) (ha0 : 0 ≤ a)
    (ha5 : a ≤ 5) : wilson_score a n ≤ a := by
  rw [wilson_score_eq a n hn ha0 ha5]
  refine max_le ha0 (le_trans (min_le_right _ _) ?_)
  rw [wilsonL]
  have hN : (0:ℝ) < (n:ℝ) := by exact_mod_cast hn
  have hp0 : 0 ≤ a/5 := by positivity
  have hp1 : a/5 ≤ 1 := by
    rw [div_le_one (by norm_num : (0:ℝ) < 5)]
    exact ha5
  have hq0 : 0 ≤ (a/5) * (1-(a/5)) := mul_nonneg hp0 (by linarith)
  have hkey : (1.96:ℝ)^2 * (1/2 - a/5) ≤
      Real.sqrt ((1.96:ℝ)^2 * ((a/5)*(1-(a/5))) * n + ((1.96:ℝ)^2)^2/4) := by
    rcases le_or_lt (a/5) (1/2) with hle | hlt
    · apply Real.le_sqrt_of_sq_le
      nlinarith [mul_nonneg (mul_nonneg
          (by positivity : (0:ℝ) ≤ (1.96:ℝ)^2) hq0) hN.le,
        mul_nonneg
          (by positivity : (0:ℝ) ≤ (1.96:ℝ)^2 * (1.96:ℝ)^2) hq0]
    · exact le_trans (by nlinarith) (Real.sqrt_nonneg _)
  have hmain : (↑n * (a/5) + (1.96:ℝ)^2/2 -
      Real.sqrt ((1.96:ℝ)^2 * ((a/5)*(1-(a/5))) * n + ((1.96:ℝ)^2)^2/4)) /
        (↑n + (1.96:ℝ)^2) ≤ a/5 := by
    rw [div_le_iff₀ (by positivity)]
    nlinarith [hkey]
  linarith [hmain]

/-- The weighted score is monotonically non-decreasing in the count for a
fixed nonnegative average rating. -/
theorem weighted_mono (a : ℝ) (ha0 : 0 ≤ a) {n m : ℕ} (hn : 0 < n)
    (hnm : n ≤ m) :
    weighted_average_score (some a) n ≤ weighted_average_score (some a) m := by
  rw [weighted_average_score, weighted_average_score]
  rw [if_neg hn.ne', if_neg (lt_of_lt_of_le hn hnm).ne']
  apply mul_le_mul_of_nonneg_left _ ha0
  apply Real.log_le_log (by positivity)
  have : (n:ℝ) ≤ (m:ℝ) := by exact_mod_cast hnm
  linarith

/-- The Bayesian score is non-decreasing in the count only when the
average rating is at least the prior mean 3. -/
theorem bayesian_mono_of_ge (a : ℝ) (ha : 3 ≤ a) {n m : ℕ} (hn : 0 < n)
    (hnm : n ≤ m) :
    bayesian_average_score (some a) n ≤ bayesian_average_score (some a) m := by
  rw [bayesian_average_score, bayesian_average_score]
  rw [if_neg hn.ne', if_neg (lt_of_lt_of_le hn hnm).ne']
  have hN : (0:ℝ) < n := by exact_mod_cast hn
  have hM : (n:ℝ) ≤ m := by exact_mod_cast hnm
  rw [div_le_div_iff₀ (by positivity) (by positivity)]
  nlinarith [mul_nonneg (sub_nonneg.mpr hM) (sub_nonneg.mpr ha)]

/-- The Bayesian score is non-increasing in the count when the average
rating is at most the prior mean 3. -/
theorem bayesian_antitone_of_le (a : ℝ) (ha : a ≤ 3) {n m : ℕ} (hn : 0 < n)
    (hnm : n ≤ m) :
    bayesian_average_score (some a) m ≤ bayesian_average_score (some a) n := by
  rw [bayesian_average_score, bayesian_average_score]
  rw [if_neg hn.ne', if_neg (lt_of_lt_of_le hn hnm).ne']
  have hN : (0:ℝ) < n := by exact_mod_cast hn
  have hM : (n:ℝ) ≤ m := by exact_mod_cast hnm
  rw [div_le_div_iff₀ (by positivity) (by positivity)]
  nlinarith [mul_nonneg (sub_nonneg.mpr hM) (sub_nonneg.mpr ha)]

/-- **C4 (amended).** For fixed avg_rating in [0, 5], the weighted and
Wilson scores are monotonically non-decreasing as count increases over
positive integers; the Bayesian score is monotonically non-decreasing only
when avg_rating is at least the prior mean 3.0, and is non-increasing when
avg_rating is at most 3.0. -/
theorem scores_monotone_amended (a : ℝ) (ha0 : 0 ≤ a) (ha5 : a ≤ 5)
    (n m : ℕ) (hn : 0 < n) (hnm : n ≤ m) :
    weighted_average_score (some a) n ≤ weighted_average_score (some a) m ∧
    wilson_score a n ≤ wilson_score a m ∧
    (3 ≤ a → bayesian_average_score (some a) n ≤
      bayesian_average_score (some a) m) ∧
    (a ≤ 3 → bayesian_average_score (some a) m ≤
      bayesian_average_score (some a) n) :=
  ⟨weighted_mono a ha0 hn hnm, wilson_score_mono a ha0 ha5 hn hnm,
    fun ha => bayesian_mono_of_ge a ha hn hnm,
    fun ha => bayesian_antitone_of_le a ha hn hnm⟩

/-- **C4 (counterexample).** The claim fails as stated: at
avg_rating = 0 (which lies in [0, 5]) the Bayesian score strictly
decreases from count 1 to count 2 ((0+9)/4 = 2.25 to (0+9)/5 = 1.8). -/
theorem bayesian_not_monotone :
    (0:ℝ) ≤ 0 ∧ (0:ℝ) ≤ 5 ∧ 0 < 1 ∧ (1:ℕ) ≤ 2 ∧
      bayesian_average_score (some 0) 2 < bayesian_average_score (some 0) 1 := by
  refine ⟨le_refl _, by norm_num, by norm_num, by norm_num, ?_⟩
  norm_num [bayesian_average_score]

/-- Witness for the amended C4 at avg_rating 4, counts 1 and 2. -/
theorem scores_monotone_amended_witness :
    (0:ℝ) ≤ 4 ∧ (4:ℝ) ≤ 5 ∧ 0 < 1 ∧ (1:ℕ) ≤ 2 ∧
    (weighted_average_score (some 4) 1 ≤ weighted_average_score (some 4) 2 ∧
    wilson_score 4 1 ≤ wilson_score 4 2 ∧
    ((3:ℝ) ≤ 4 → bayesian_average_score (some 4) 1 ≤
      bayesian_average_score (some 4) 2) ∧
    ((4:ℝ) ≤ 3 → bayesian_average_score (some 4) 2 ≤
      bayesian_average_score (some 4) 1)) :=
  ⟨by norm_num, by norm_num, by norm_num, by norm_num,
    scores_monotone_amended 4 (by norm_num) (by norm_num) 1 2 (by norm_num)
      (by norm_num)⟩

/-- Witness for C5 at avg_rating 4, count 1. -/
theorem wilson_shrinkage_witness :
    0 < 1 ∧ (0:ℝ) ≤ 4 ∧ (4:ℝ) ≤ 5 ∧ wilson_score 4 1 ≤ 4 :=
  ⟨by norm_num, by norm_num, by norm_num,
    wilson_le_avg 4 1 (by norm_num) (by norm_num) (by norm_num)⟩

/-- Every entry returned by `top_underhyped_directors` respects the
`min_films` filter it was called with. -/
theorem top_underhyped_min_films (records : List DiaryRecord)
    (n min_films : ℕ) (e : String × ℚ × ℕ × ℝ)
    (he : e ∈ top_underhyped_directors records n min_films) :
    min_films ≤ e.2.2.1 := by
  rw [top_underhyped_directors] at he
  have h1 := List.mem_of_mem_take he
  have h2 := (sortRows_perm _ _).mem_iff.mp h1
  rw [List.mem_filterMap] at h2
  obtain ⟨a, -, ha⟩ := h2
  by_cases hlt : a.2.2 < min_films
  · rw [if_pos hlt] at ha
    exact absurd ha (by simp)
  · rw [if_neg hlt] at ha
    injection ha with ha
    rw [← ha]
    exact le_of_not_lt hlt

/-- **C9 (amended).** The code's declared default minimum film count for
the underhyped-director ranking is 1, not 2: called with its defaults, the
ranking includes a director with a single (personally and globally rated)
film.  The minimum of 2 in production comes from the call site
(`run_scrape` passes `min_films=2` explicitly), and every returned entry
respects whatever minimum was passed. -/
theorem top_underhyped_min_respected (records : List DiaryRecord)
    (n min_films : ℕ) :
    (∀ e ∈ top_underhyped_directors records n min_films,
      min_films ≤ e.2.2.1) ∧
    top_underhyped_directors_default records =
      top_underhyped_directors records 3 1 :=
  ⟨fun e he => top_underhyped_min_films records n min_films e he, rfl⟩

/-- Witness for the amended C9: a two-film director passes the
`min_films = 2` filter used by `run_scrape`. -/
theorem top_underhyped_min_respected_witness :
    (∀ e ∈ top_underhyped_directors
        [⟨"A", some 5, some 4, ["D"]⟩, ⟨"B", some 3, some 4, ["D"]⟩] 10 2,
      2 ≤ e.2.2.1) ∧
    top_underhyped_directors_default
        [⟨"A", some 5, some 4, ["D"]⟩, ⟨"B", some 3, some 4, ["D"]⟩] =
      top_underhyped_directors
        [⟨"A", some 5, some 4, ["D"]⟩, ⟨"B", some 3, some 4, ["D"]⟩] 3 1 :=
  top_underhyped_min_respected
    [⟨"A", some 5, some 4, ["D"]⟩, ⟨"B", some 3, some 4, ["D"]⟩] 10 2

/-- **C9 (counterexample).** Called without an explicit
minimum-film-count argument, `top_underhyped_directors` does NOT apply a
minimum of 2: a director with exactly one film carrying both a personal
and a global rating is returned. -/
theorem top_underhyped_default_includes_single_film :
    top_underhyped_directors_default [⟨"A", some 2, some 4, ["D"]⟩] =
      [("D", -2, 1, (-2 : ℝ))] := by
  have hD : ¬ (("D" : String) = "") := by decide
  rw [top_underhyped_directors_default, top_underhyped_directors,
    director_rating_variance]
  norm_num [directorVariancePairs, dedupFirst, sortRows, insertRow,
    Real.sqrt_one, List.filter_cons, List.filter_nil, List.map_cons,
    List.map_nil, List.sum_cons, List.sum_nil, List.flatMap_cons,
    List.flatMap_nil, hD]

/-! ### C10: the overall average rating -/

theorem nodup_names_dropDupByName :
    ∀ (s : List DiaryRecord) (seen : List String),
      ((dropDupByName s seen).map (fun r => r.movie_name)).Nodup
  | [], _ => List.nodup_nil
  | x :: xs, seen => by
    simp only [dropDupByName]
    split
    · exact nodup_names_dropDupByName xs seen
    · rw [List.map_cons, List.nodup_cons]
      refine ⟨?_, nodup_names_dropDupByName xs _⟩
      intro hc
      rw [List.mem_map] at hc
      obtain ⟨y, hy, hyname⟩ := hc
      have := not_mem_seen_of_mem_dropDupByName hy
      rw [hyname] at this
      exact this (List.mem_cons_self _ _)

theorem nodup_df_unique (records : List DiaryRecord) :
    (df_unique records).Nodup :=
  List.Nodup.of_map _ (nodup_names_dropDupByName (sortRows dedupLE records) [])

/-- Appending a diary row whose `fillna(-1)` rating does not exceed the
maximum already recorded for its title does not change which row is
canonical for any title. -/
theorem firstArgmax_append_le (records : List DiaryRecord)
    (r0 : DiaryRecord)
    (hle : ∃ x ∈ records, x.movie_name = r0.movie_name ∧
      ratingSort r0 ≤ ratingSort x) (t : String) :
    firstArgmax (records ++ [r0]) t = firstArgmax records t := by
  obtain ⟨x0, hx0mem, hx0name, hx0le⟩ := hle
  by_cases ht : r0.movie_name = t
  case neg =>
    have hfil : (records ++ [r0]).filter (fun y => y.movie_name == t) =
        records.filter (fun y => y.movie_name == t) := by
      rw [List.filter_append]
      simp [List.filter_cons, ht]
    have hpred : argmaxPred (records ++ [r0]) t = argmaxPred records t := by
      funext y
      rw [argmaxPred, argmaxPred, hfil]
    rw [firstArgmax_eq_find?, firstArgmax_eq_find?, hpred, List.find?_append]
    have hr0 : argmaxPred records t r0 = false := by
      simp [argmaxPred, ht]
    rw [List.find?_cons_of_neg _ (by simp [hr0]), List.find?_nil,
      Option.or_none]
  case pos =>
    subst ht
    have hsome : (firstArgmax records r0.movie_name).isSome := by
      rw [← find?_sortRows_eq_firstArgmax, List.find?_isSome]
      exact ⟨x0, (sortRows_perm dedupLE records).mem_iff.mpr hx0mem,
        by simp [hx0name]⟩
    obtain ⟨w, hw⟩ := Option.isSome_iff_exists.mp hsome
    rw [hw]
    have hwpred := List.find?_some (firstArgmax_eq_find? records _ ▸ hw)
    simp only [argmaxPred, Bool.and_eq_true, beq_iff_eq,
      List.all_eq_true] at hwpred
    obtain ⟨hwname, hwall⟩ := hwpred
    have hr0w : ratingSort r0 ≤ ratingSort w := by
      refine le_trans hx0le (of_decide_eq_true (hwall x0 ?_))
      exact List.mem_filter.mpr ⟨hx0mem, by simp [hx0name]⟩
    rw [firstArgmax_eq_find?, List.find?_eq_some] at hw
    obtain ⟨hpw, l1, l2, hdecomp, hl1⟩ := hw
    rw [firstArgmax_eq_find?, List.find?_eq_some]
    have hfil : (records ++ [r0]).filter
        (fun y => y.movie_name == r0.movie_name) =
        records.filter (fun y => y.movie_name == r0.movie_name) ++ [r0] := by
      rw [List.filter_append]
      simp [List.filter_cons]
    have hsplit : ∀ a : DiaryRecord,
        argmaxPred (records ++ [r0]) r0.movie_name a =
          (argmaxPred records r0.movie_name a &&
            decide (ratingSort r0 ≤ ratingSort a)) := by
      intro a
      simp only [argmaxPred, hfil, List.all_append, List.all_cons,
        List.all_nil, Bool.and_true, Bool.and_assoc]
    refine ⟨?_, l1, l2 ++ [r0], ?_, ?_⟩
    · rw [hsplit w]
      simp only [Bool.and_eq_true, decide_eq_true_eq]
      exact ⟨hpw, hr0w⟩
    · rw [hdecomp, List.append_assoc, List.cons_append]
    · intro a ha
      rw [hsplit a]
      have hna := hl1 a ha
      rw [Bool.not_eq_true'] at hna ⊢
      rw [hna, Bool.false_and]

/-- Under the same condition, the deduplicated dataframe after the append
is a permutation of the one before. -/
theorem df_unique_append_perm (records : List DiaryRecord)
    (r0 : DiaryRecord)
    (hle : ∃ x ∈ records, x.movie_name = r0.movie_name ∧
      ratingSort r0 ≤ ratingSort x) :
    List.Perm (df_unique (records ++ [r0])) (df_unique records) := by
  rw [List.perm_ext_iff_of_nodup (nodup_df_unique _) (nodup_df_unique _)]
  intro y
  rw [mem_df_unique_iff, mem_df_unique_iff,
    firstArgmax_append_le records r0 hle]

/-- **C10 (amended).** The overall average rating is the mean of the
canonical (deduplicated) set's numeric ratings, so appending a rewatch
whose rating does not exceed the title's recorded maximum (absent treated
as lowest) leaves it unchanged; and it is absent (null) exactly when no
canonical record has a numeric rating.  (A rewatch rated *above* the
title's previous maximum does change it, see the counterexample.) -/
theorem get_average_rating_amended (records : List DiaryRecord)
    (r0 : DiaryRecord)
    (hle : ∃ x ∈ records, x.movie_name = r0.movie_name ∧
      ratingSort r0 ≤ ratingSort x) :
    get_average_rating (records ++ [r0]) = get_average_rating records ∧
    (get_average_rating records = none ↔
      ∀ x ∈ df_unique records, x.rating = none) := by
  constructor
  · have hperm := (df_unique_append_perm records r0 hle).filterMap
      (fun r => r.rating)
    rw [get_average_rating, get_average_rating, avgRatingOf, avgRatingOf]
    by_cases hnil : (df_unique records).filterMap (fun r => r.rating) = []
    · have hnil' : (df_unique (records ++ [r0])).filterMap
          (fun r => r.rating) = [] := by
        rw [← List.length_eq_zero] at hnil ⊢
        rw [hperm.length_eq, hnil]
      rw [if_pos hnil, if_pos hnil']
    · have hnil' : ¬ (df_unique (records ++ [r0])).filterMap
          (fun r => r.rating) = [] := by
        intro hc
        apply hnil
        rw [← List.length_eq_zero] at hc ⊢
        rw [← hperm.length_eq]
        exact hc
      rw [if_neg hnil, if_neg hnil', hperm.sum_eq, hperm.length_eq]
  · rw [get_average_rating, avgRatingOf]
    split
    · rename_i h
      exact iff_of_true rfl (fun x hx => List.filterMap_eq_nil_iff.mp h x hx)
    · rename_i h
      exact iff_of_false (by simp)
        (fun hall => h (List.filterMap_eq_nil_iff.mpr
          (fun x hx => hall x hx)))

/-- Witness for the amended C10: rewatching "a" with a lower rating (3
after a 4) leaves the overall average at 4. -/
theorem get_average_rating_amended_witness :
    (get_average_rating ([⟨"a", some 4, none, []⟩] ++
        [⟨"a", some 3, none, []⟩]) =
      get_average_rating [⟨"a", some 4, none, []⟩]) ∧
    (get_average_rating [⟨"a", some 4, none, []⟩] = none ↔
      ∀ x ∈ df_unique [⟨"a", some 4, none, []⟩], x.rating = none) :=
  get_average_rating_amended [⟨"a", some 4, none, []⟩]
    ⟨"a", some 3, none, []⟩
    ⟨⟨"a", some 4, none, []⟩, by decide, by decide, by decide⟩

/-- **C10 (counterexample).** "Rewatching a film never changes the
overall average rating" fails: a rewatch rated above the title's previous
maximum replaces the canonical rating, changing the average (2.0 becomes
5.0 here). -/
theorem rewatch_changes_average :
    get_average_rating [⟨"a", some 2, none, []⟩] = some 2 ∧
    get_average_rating [⟨"a", some 2, none, []⟩, ⟨"a", some 5, none, []⟩]
      = some 5 ∧
    (some (2:ℚ)) ≠ some (5:ℚ) := by
  refine ⟨?_, ?_, by decide⟩
  · norm_num [get_average_rating, df_unique, sortRows, insertRow,
      dropDupByName, avgRatingOf, List.filterMap_cons]
  · norm_num [get_average_rating, df_unique, sortRows, insertRow,
      dropDupByName, avgRatingOf, dedupLE, ratingSort, List.filterMap_cons]

